import Mathlib

/-!
Verification of the RAG_Toon retrieval pipeline.

Shallow embedding of the core retrieval code:
  * `src/utils/vectorStore.ts` — `FAISSVectorStore` (add / search / save / load /
    clear / count / getAllDocuments) and the chunking utilities
    (`chunkText`, `chunkBySentences`, `chunkByParagraphs`, `chunkWithMetadata`);
  * `src/utils/embeddings.ts` — `EmbeddingGenerator.generateEmbedding(s)`,
    `validateEmbedding`, `cosineSimilarity`;
  * `src/utils/reranker.ts` — `Reranker.rerank`.

Modelling conventions:
  * JavaScript strings are `List Char`; JavaScript numbers are `ℚ`
    (exact arithmetic in place of IEEE doubles);
  * `Math.sqrt` is an opaque parameter `sqrt : ℚ → ℚ` (the code only
    ever feeds its result to comparisons and a zero test);
  * the remote embedding model is an opaque pure function
    `embed : List Char → List ℚ` (the spec treats `embed` as a pure,
    cacheable function of the text);
  * thrown `Error`s become an explicit error type `JsErr` through `Except`;
  * the possibly non-terminating `while` loop of `chunkText` is given an
    explicit fuel; `none` means the fuel was exhausted (the loop did not
    finish within `fuel` iterations).
-/

/-! ### JavaScript string primitives -/

/-- Whitespace characters removed by JavaScript `String.prototype.trim`
(ASCII whitespace plus no-break space). -/
def isJsWs (c : Char) : Bool :=
  c = ' ' || c = '\t' || c = '\n' || c = '\r' ||
  c = '\x0b' || c = '\x0c' || c = ' '

/-- JavaScript `String.prototype.trim`: drop leading and trailing whitespace. -/
def jsTrim (t : List Char) : List Char :=
  ((t.dropWhile isJsWs).reverse.dropWhile isJsWs).reverse

/-- JavaScript `String.prototype.substring(a, b)`: both arguments are clamped
to `[0, length]` and swapped when out of order. -/
def jsSubstring (t : List Char) (a b : ℤ) : List Char :=
  let len : ℤ := t.length
  let x := max 0 (min a len)
  let y := max 0 (min b len)
  let lo := min x y
  let hi := max x y
  (t.drop lo.toNat).take (hi - lo).toNat

/-! ### Data model: documents and metadata -/

/-- A JSON-representable metadata value.  The spec (§9) fixes the permitted
value shapes of the open metadata map to scalars (string, number, boolean,
null); nested shapes are not used by any claim. -/
inductive JVal where
  | jnull
  | jbool (b : Bool)
  | jnum (q : ℚ)
  | jstr (s : List Char)
deriving DecidableEq

/-- Metadata: an ordered string-keyed record, as a JavaScript object literal. -/
abbrev Metadata := List (List Char × JVal)

/-- `Document` from `src/types.ts`: id, content and metadata. -/
structure Doc where
  id : List Char
  content : List Char
  metadata : Metadata
deriving DecidableEq

/-- First value stored under key `k` (JavaScript property read). -/
def getKey (k : List Char) (m : Metadata) : Option JVal :=
  (m.find? (fun p => p.1 = k)).map (·.2)

/-- JavaScript spread-override `{...m, k: v}`: replace the value under an
existing key in place, otherwise append the new key at the end. -/
def setKey (k : List Char) (v : JVal) (m : Metadata) : Metadata :=
  if m.any (fun p => p.1 = k) then
    m.map (fun p => if p.1 = k then (k, v) else p)
  else m ++ [(k, v)]

/-! ### Chunker (`chunkText` and friends, vectorStore.ts related file) -/

/-- JavaScript `options.x || DEFAULT`: an absent or zero value falls back to
the default (`0` is falsy). -/
def jsOrDefault (dflt : ℤ) : Option ℤ → ℤ
  | none => dflt
  | some v => if v = 0 then dflt else v

/-- The `while (start < text.length)` loop of `chunkText`, with explicit fuel.
Each iteration pushes `text.substring(start, min(start + chunkSize, length))`
and advances `start` by `chunkSize - overlap`.  `none` means the loop did not
finish within `fuel` iterations. -/
def chunkLoop (text : List Char) (chunkSize overlap : ℤ) (start : ℤ) :
    ℕ → Option (List (List Char))
  | 0 => none
  | fuel + 1 =>
    if start < (text.length : ℤ) then
      (chunkLoop text chunkSize overlap (start + (chunkSize - overlap)) fuel).map
        (jsSubstring text start (min (start + chunkSize) (text.length : ℤ)) :: ·)
    else some []

/-- `chunkText(text, options)`: resolve defaults via `||`, return `[text]`
when the text fits in one chunk, otherwise run the sliding-window loop.
Fuel `text.length + 1` suffices whenever the window advances by at least one
character per step; `none` therefore reports a non-advancing loop. -/
def chunkText (text : List Char) (optSize optOverlap : Option ℤ) :
    Option (List (List Char)) :=
  let chunkSize := jsOrDefault 1000 optSize
  let overlap := jsOrDefault 200 optOverlap
  if (text.length : ℤ) ≤ chunkSize then some [text]
  else chunkLoop text chunkSize overlap 0 (text.length + 1)

/-- Concatenation of chunks with the overlapping prefixes removed: the first
chunk whole, every later chunk with its first `overlap` characters dropped. -/
def chunksJoin (overlap : ℕ) : List (List Char) → List Char
  | [] => []
  | c :: r => c ++ (r.map (fun x => x.drop overlap)).flatten

/-- Sentence terminators of the regex `[^.!?]+[.!?]+`. -/
def isTerm (c : Char) : Bool := c = '.' || c = '!' || c = '?'

/-- Global matching of `/[^.!?]+[.!?]+/g` as a single pass: accumulate the
current run of non-terminators (`a`, reversed) and the following run of
terminators (`b`, reversed); a match is emitted when a terminator run ends
and both runs are non-empty. -/
def sentencesAux : List Char → List Char → List Char → List (List Char)
  | [], a, b => if a ≠ [] ∧ b ≠ [] then [a.reverse ++ b.reverse] else []
  | c :: cs, a, b =>
    if isTerm c then sentencesAux cs a (c :: b)
    else if b ≠ [] then
      (if a ≠ [] then [a.reverse ++ b.reverse] else []) ++ sentencesAux cs [c] []
    else sentencesAux cs (c :: a) b

/-- `text.match(/[^.!?]+[.!?]+/g) || [text]`: the match list, or the whole
text as a single element when there is no match (`match` returns `null`). -/
def jsSentences (t : List Char) : List (List Char) :=
  let m := sentencesAux t [] []
  if m = [] then [t] else m

/-- The greedy accumulation loop of `chunkBySentences`: append the sentence
while the combined length stays within `chunkSize`, otherwise flush the
trimmed buffer; the final non-empty buffer is flushed trimmed. -/
def accumSentences (chunkSize : ℤ) : List (List Char) → List Char → List (List Char)
  | [], cur => if cur ≠ [] then [jsTrim cur] else []
  | s :: ss, cur =>
    if ((cur.length + s.length : ℤ) ≤ chunkSize) then
      accumSentences chunkSize ss (cur ++ s)
    else
      (if cur ≠ [] then [jsTrim cur] else []) ++ accumSentences chunkSize ss s

/-- `chunkBySentences(text, options)`.  The `overlap` option is read but
never used by the accumulation. -/
def chunkBySentences (text : List Char) (optSize optOverlap : Option ℤ) :
    List (List Char) :=
  let chunkSize := jsOrDefault 1000 optSize
  let _overlap := jsOrDefault 200 optOverlap
  accumSentences chunkSize (jsSentences text) []

/-- One step of splitting on the regex `/\n\n+/`: find the first separator
(two newlines extended greedily over the whole newline run) and return the
piece before it together with the remainder after it. -/
def findSep : List Char → Option (List Char × List Char)
  | [] => none
  | c :: cs =>
    if c = '\n' ∧ cs.head? = some '\n' then
      some ([], cs.dropWhile (· = '\n'))
    else
      (findSep cs).map (fun pr => (c :: pr.1, pr.2))

theorem length_dropWhile_le_len {α : Type} (p : α → Bool) (l : List α) :
    (l.dropWhile p).length ≤ l.length := by
  induction l with
  | nil => simp
  | cons c cs ih =>
    by_cases h : p c
    · simp [List.dropWhile, h]; omega
    · simp [List.dropWhile, h]

theorem findSep_length : ∀ (t p r : List Char), findSep t = some (p, r) →
    r.length < t.length := by
  intro t
  induction t with
  | nil => intro p r h; simp [findSep] at h
  | cons c cs ih =>
    intro p r h
    simp only [findSep] at h
    split at h
    · cases h
      calc (cs.dropWhile (· = '\n')).length ≤ cs.length :=
            length_dropWhile_le_len _ cs
        _ < (c :: cs).length := by simp
    · rcases Option.map_eq_some'.mp h with ⟨⟨p', r'⟩, hfs, heq⟩
      cases heq
      exact Nat.lt_trans (ih p' r' hfs) (by simp)

/-- `text.split(/\n\n+/)`: pieces between maximal blank-line separators. -/
def splitBlank (t : List Char) : List (List Char) :=
  match h : findSep t with
  | none => [t]
  | some (p, r) => p :: splitBlank r
termination_by t.length
decreasing_by exact findSep_length t p r h

/-- The greedy accumulation loop of `chunkByParagraphs`: the size test always
joins with a blank line (`currentChunk + '\n\n' + paragraph`), the update
joins with a blank line only when the buffer is non-empty. -/
def accumParagraphs (chunkSize : ℤ) : List (List Char) → List Char → List (List Char)
  | [], cur => if cur ≠ [] then [jsTrim cur] else []
  | p :: ps, cur =>
    if ((cur.length + 2 + p.length : ℤ) ≤ chunkSize) then
      accumParagraphs chunkSize ps (cur ++ (if cur ≠ [] then ['\n', '\n'] else []) ++ p)
    else
      (if cur ≠ [] then [jsTrim cur] else []) ++ accumParagraphs chunkSize ps p

/-- `chunkByParagraphs(text, options)`: split on blank lines, keep the
paragraphs with non-empty trim, then accumulate greedily.  The `overlap`
option is read but never used. -/
def chunkByParagraphs (text : List Char) (optSize optOverlap : Option ℤ) :
    List (List Char) :=
  let chunkSize := jsOrDefault 1000 optSize
  let _overlap := jsOrDefault 200 optOverlap
  let paragraphs := (splitBlank text).filter (fun p => (jsTrim p).length ≠ 0)
  accumParagraphs chunkSize paragraphs []

/-- One `{text, metadata}` element produced by `chunkWithMetadata`. -/
structure MetaChunk where
  text : List Char
  metadata : Metadata
deriving DecidableEq

/-- `chunkWithMetadata(text, metadata, options)`: run `chunkByParagraphs`,
then stamp each chunk with `{...metadata, chunkIndex: index,
totalChunks: chunks.length}`. -/
def chunkWithMetadata (text : List Char) (metadata : Metadata)
    (optSize optOverlap : Option ℤ) : List MetaChunk :=
  let chunks := chunkByParagraphs text optSize optOverlap
  chunks.enum.map (fun p =>
    { text := p.2,
      metadata := setKey ("totalChunks".toList) (.jnum chunks.length)
        (setKey ("chunkIndex".toList) (.jnum p.1) metadata) })

/-! ### Errors thrown by the code -/

/-- The `Error`s thrown by the embedded code, one constructor per `throw`
site (the doc comments quote the JavaScript message). -/
inductive JsErr where
  /-- "Text cannot be empty" (`generateEmbedding`). -/
  | textEmpty
  /-- "Texts array cannot be empty" (`generateEmbeddings`). -/
  | textsEmpty
  /-- "Embeddings must have the same dimension" (`cosineSimilarity`). -/
  | dimensionMismatch
  /-- "Documents array cannot be empty" (`addDocuments`). -/
  | docsEmpty
  /-- "Invalid embedding dimension at index i" (`addDocuments`). -/
  | invalidEmbeddingAt (i : ℕ)
  /-- faiss `IndexFlatL2.add` rejects a vector of the wrong dimension. -/
  | indexAddDim
  /-- "Query cannot be empty" (`search`). -/
  | queryEmpty
  /-- "Vector store is empty" (`search`). -/
  | storeEmpty
  /-- faiss `IndexFlatL2.search` rejects a query of the wrong dimension. -/
  | queryDimMismatch
  /-- `FaissStore.read` / `fs.readFileSync` on a missing file. -/
  | fileMissing
  /-- `JSON.parse` on unparseable content. -/
  | corruptData
deriving DecidableEq

/-! ### Embedder (`embeddings.ts`) -/

/-- `EmbeddingGenerator.generateEmbedding(text)`: reject empty or
whitespace-only text, otherwise call the remote model on `text.trim()`.
The remote model is the opaque pure function `embed`. -/
def generateEmbedding (embed : List Char → List ℚ) (t : List Char) :
    Except JsErr (List ℚ) :=
  if (jsTrim t).length = 0 then .error .textEmpty
  else .ok (embed (jsTrim t))

/-- Collect a list of fallible results, failing at the first error
(`Promise.all` with deterministic sequential settlement). -/
def collectExcept {ε α : Type} : List (Except ε α) → Except ε (List α)
  | [] => .ok []
  | x :: xs =>
    match x with
    | .error e => .error e
    | .ok a =>
      match collectExcept xs with
      | .error e => .error e
      | .ok rest => .ok (a :: rest)

/-- `EmbeddingGenerator.generateEmbeddings(texts)`: reject an empty input
array, otherwise embed every text preserving order. -/
def generateEmbeddings (embed : List Char → List ℚ) (texts : List (List Char)) :
    Except JsErr (List (List ℚ)) :=
  if texts.length = 0 then .error .textsEmpty
  else collectExcept (texts.map (generateEmbedding embed))

/-- `EmbeddingGenerator.validateEmbedding(e)`: true iff the vector has the
generator's dimension `D`. -/
def validateEmbedding (D : ℕ) (e : List ℚ) : Bool := e.length = D

/-- `a.reduce((sum, val, i) => sum + val * b[i], 0)` for equal-length
vectors: the dot product. -/
def dotProduct (a b : List ℚ) : ℚ :=
  ((a.zip b).map (fun p => p.1 * p.2)).sum

/-- `v.reduce((sum, val) => sum + val * val, 0)`: the sum of squares. -/
def sumSquares (v : List ℚ) : ℚ := (v.map (fun x => x * x)).sum

/-- The value computed by `cosineSimilarity` after its dimension guard:
magnitudes via `sqrt`, `0` when either magnitude is zero, otherwise the
normalised dot product. -/
def cosineValue (sqrt : ℚ → ℚ) (a b : List ℚ) : ℚ :=
  let magnitudeA := sqrt (sumSquares a)
  let magnitudeB := sqrt (sumSquares b)
  if magnitudeA = 0 ∨ magnitudeB = 0 then 0
  else dotProduct a b / (magnitudeA * magnitudeB)

/-- `cosineSimilarity(a, b)`: throw on a length mismatch, otherwise compute
the guarded normalised dot product. -/
def cosineSimilarity (sqrt : ℚ → ℚ) (a b : List ℚ) : Except JsErr ℚ :=
  if a.length ≠ b.length then .error .dimensionMismatch
  else .ok (cosineValue sqrt a b)

/-! ### Reranker (`reranker.ts`) -/

/-- The score `rerank` assigns to one document: cosine similarity between
the query embedding and the document-content embedding. -/
def docScore (embed : List Char → List ℚ) (sqrt : ℚ → ℚ) (query : List Char)
    (d : Doc) : ℚ :=
  cosineValue sqrt (embed (jsTrim query)) (embed (jsTrim d.content))

/-- The `documents.map(async (doc, idx) => ...)` step of `rerank`: embed each
document's content, score it against the query embedding and tag it with its
original index (starting at `i`); the first failure rejects the whole batch. -/
def scoreDocsFrom (embed : List Char → List ℚ) (sqrt : ℚ → ℚ) (qe : List ℚ) :
    List Doc → ℕ → Except JsErr (List (Doc × ℚ × ℕ))
  | [], _ => .ok []
  | d :: ds, i =>
    match generateEmbedding embed d.content with
    | .error e => .error e
    | .ok de =>
      match cosineSimilarity sqrt qe de with
      | .error e => .error e
      | .ok s =>
        match scoreDocsFrom embed sqrt qe ds (i + 1) with
        | .error e => .error e
        | .ok rest => .ok ((d, s, i) :: rest)

/-- The comparator `(a, b) => b.score - a.score` passed to the (stable)
JavaScript `Array.prototype.sort`: `a` may precede `b` iff
`a.score ≥ b.score`. -/
def scoreGe (x y : Doc × ℚ × ℕ) : Prop := y.2.1 ≤ x.2.1

instance : DecidableRel scoreGe := fun x y => by
  unfold scoreGe; infer_instance

/-- `Reranker.rerank(query, documents, topK)`.  Returns the result together
with the trace of texts passed to `generateEmbedding`, in call order
(the query first, then every candidate's content, one call each).
The sort is modelled by a stable insertion sort, as `Array.prototype.sort`
is stable (ECMAScript 2019). -/
def rerank (embed : List Char → List ℚ) (sqrt : ℚ → ℚ) (query : List Char)
    (documents : List Doc) (topK : ℕ) :
    Except JsErr (List Doc) × List (List Char) :=
  if documents.length = 0 then (.ok [], [])
  else if documents.length ≤ topK then (.ok documents, [])
  else
    match generateEmbedding embed query with
    | .error e => (.error e, [query])
    | .ok qe =>
      match scoreDocsFrom embed sqrt qe documents 0 with
      | .error e => (.error e, query :: documents.map (·.content))
      | .ok scored =>
        let sorted := scored.insertionSort scoreGe
        (.ok ((sorted.take topK).map (·.1)), query :: documents.map (·.content))

/-- Strict descending-score order with ties broken by original position:
the characterising order of a stable descending sort by score. -/
def scoreLex (x y : Doc × ℚ × ℕ) : Prop :=
  y.2.1 < x.2.1 ∨ (x.2.1 = y.2.1 ∧ x.2.2 < y.2.2)

/-- The success contract of `rerank` for `topK < |documents|`: the embedding
call trace is the query followed by every candidate's content (each embedded
exactly once, in order); the output has exactly `topK` documents; their
scores are non-increasing; and the output is the `topK`-prefix of a
permutation of the scored candidates that is sorted strictly by descending
score with ties in original candidate order (the stable sort). -/
def rerankPost (embed : List Char → List ℚ) (sqrt : ℚ → ℚ)
    (query : List Char) (documents : List Doc) (topK : ℕ) : Prop :=
  ∃ out, rerank embed sqrt query documents topK =
      (.ok out, query :: documents.map (·.content)) ∧
    out.length = topK ∧
    (out.map (docScore embed sqrt query)).Sorted (fun a b => b ≤ a) ∧
    ∃ sorted : List (Doc × ℚ × ℕ),
      sorted.Perm (documents.enum.map
        (fun p => (p.2, docScore embed sqrt query p.2, p.1))) ∧
      sorted.Pairwise scoreLex ∧
      out = (sorted.take topK).map (·.1)

/-! ### Vector store (`vectorStore.ts`) with a spec-modelled faiss index -/

/-- The persisted faiss index artifact (`index.write(path)`): the index's
dimension together with its stored vectors, in insertion order. -/
structure IndexArtifact where
  dim : ℕ
  vectors : List (List ℚ)
deriving DecidableEq

/-- The file system seen by `saveIndex` / `loadIndex`: for each path,
the optional faiss artifact at `path` and the optional content of
`path + '.docs.json'` (`some none` = present but unparseable). -/
structure FS where
  idxFile : List Char → Option IndexArtifact
  docFile : List Char → Option (Option (List Doc))

/-- A file system with no files. -/
def emptyFS : FS := ⟨fun _ => none, fun _ => none⟩

/-- `FAISSVectorStore` state: the constructor dimension, the current faiss
index (its dimension and vectors) and the parallel document list. -/
structure StoreState where
  ctorDim : ℕ
  indexDim : ℕ
  vectors : List (List ℚ)
  documents : List Doc
deriving DecidableEq

/-- A freshly constructed store: `new FaissStore.IndexFlatL2(dimension)`
and an empty document list. -/
def freshStore (dimension : ℕ) : StoreState :=
  ⟨dimension, dimension, [], []⟩

/-- The embedding the store pairs with a document: `generateEmbedding`
applied to the document's content (which trims it first). -/
def docEmbed (embed : List Char → List ℚ) (d : Doc) : List ℚ :=
  embed (jsTrim d.content)

/-- The per-pair loop of `addDocuments`, starting at index `i`: validate the
embedding's dimension against the generator dimension `D` (throwing with the
offending index), let `index.add` reject a vector that does not match the
faiss index's dimension, then append the vector and the document together.
A failure keeps every pair appended so far. -/
def addLoop (D : ℕ) (s : StoreState) :
    List (Doc × List ℚ) → ℕ → Except JsErr Unit × StoreState
  | [], _ => (.ok (), s)
  | (d, e) :: rest, i =>
    if ¬ validateEmbedding D e then (.error (.invalidEmbeddingAt i), s)
    else if e.length ≠ s.indexDim then (.error .indexAddDim, s)
    else addLoop D { s with vectors := s.vectors ++ [e],
                            documents := s.documents ++ [d] } rest (i + 1)

/-- `FAISSVectorStore.addDocuments(documents)`: reject an empty array, embed
every content in one batch, then add the `(vector, document)` pairs one by
one. -/
def addDocuments (embed : List Char → List ℚ) (D : ℕ) (s : StoreState)
    (documents : List Doc) : Except JsErr Unit × StoreState :=
  if documents.length = 0 then (.error .docsEmpty, s)
  else
    match generateEmbeddings embed (documents.map (·.content)) with
    | .error e => (.error e, s)
    | .ok embeddings => addLoop D s (documents.zip embeddings) 0

/-- Squared L2 distance between two vectors of the index's dimension. -/
def sqDist (a b : List ℚ) : ℚ :=
  ((a.zip b).map (fun p => (p.1 - p.2) * (p.1 - p.2))).sum

/-- Ordering of index entries by (distance, ordinal) — ascending distance,
ties by insertion order. -/
def distLe (x y : ℕ × ℚ) : Prop := x.2 < y.2 ∨ (x.2 = y.2 ∧ x.1 ≤ y.1)

instance : DecidableRel distLe := fun x y => by
  unfold distLe; infer_instance

instance : IsTotal (ℕ × ℚ) distLe := by
  constructor
  intro a b
  unfold distLe
  rcases lt_trichotomy a.2 b.2 with h | h | h
  · exact Or.inl (Or.inl h)
  · rcases Nat.le_total a.1 b.1 with h1 | h1
    · exact Or.inl (Or.inr ⟨h, h1⟩)
    · exact Or.inr (Or.inr ⟨h.symm, h1⟩)
  · exact Or.inr (Or.inl h)

instance : IsTrans (ℕ × ℚ) distLe := by
  constructor
  intro a b c hab hbc
  unfold distLe at hab hbc ⊢
  rcases hab with h1 | ⟨h1, h1i⟩
  · rcases hbc with h2 | ⟨h2, _⟩
    · exact Or.inl (lt_trans h1 h2)
    · exact Or.inl (h2 ▸ h1)
  · rcases hbc with h2 | ⟨h2, h2i⟩
    · exact Or.inl (h1 ▸ h2)
    · exact Or.inr ⟨h1.trans h2, le_trans h1i h2i⟩

/-- Modelled from the spec: `faiss-node`'s `IndexFlatL2.search(q, k)` is not
part of this repository; the spec fixes its contract to exact brute-force
nearest-neighbour search, "ordered nearest-first by L2 distance".  The model
rejects a query of the wrong dimension (as faiss does), ranks every stored
ordinal by squared L2 distance (monotone in L2 distance) with ties by
ordinal, and returns the first `k` labels. -/
def idxSearch (s : StoreState) (q : List ℚ) (k : ℕ) : Except JsErr (List ℕ) :=
  if q.length ≠ s.indexDim then .error .queryDimMismatch
  else
    .ok (((((List.range s.vectors.length).map
        (fun i => (i, sqDist q (s.vectors.getD i [])))).insertionSort
          distLe).take k).map (·.1))

/-- `FAISSVectorStore.search(query, topK)`: reject an empty or
whitespace-only query, then an empty store, both before embedding; then
embed the query, clamp `k` to the stored count, search the faiss index and
map the returned labels to documents.  The second component is the trace of
texts passed to `generateEmbedding`. -/
def search (embed : List Char → List ℚ) (s : StoreState) (query : List Char)
    (topK : ℕ) : Except JsErr (List Doc) × List (List Char) :=
  if (jsTrim query).length = 0 then (.error .queryEmpty, [])
  else if s.documents.length = 0 then (.error .storeEmpty, [])
  else
    match generateEmbedding embed query with
    | .error e => (.error e, [query])
    | .ok qe =>
      let k := min topK s.documents.length
      match idxSearch s qe k with
      | .error e => (.error e, [query])
      | .ok labels => (.ok (labels.map (fun i => s.documents.getD i ⟨[], [], []⟩)), [query])

/-- The success contract of `search` (used by the claim about non-empty
queries on non-empty stores): some list of labels into the store exists,
pairwise distinct and in range, of length `min topK count`, ordered by
non-decreasing squared L2 distance from the query embedding, and the result
maps those labels to their documents after exactly one embedding call, on
the query. -/
def searchPost (embed : List Char → List ℚ) (s : StoreState)
    (query : List Char) (topK : ℕ) : Prop :=
  ∃ labels : List ℕ,
    search embed s query topK =
      (.ok (labels.map (fun i => s.documents.getD i ⟨[], [], []⟩)), [query]) ∧
    labels.length = min topK s.documents.length ∧
    labels.Nodup ∧
    (∀ i ∈ labels, i < s.documents.length) ∧
    labels.Pairwise (fun i j =>
      sqDist (embed (jsTrim query)) (s.vectors.getD i []) ≤
        sqDist (embed (jsTrim query)) (s.vectors.getD j []))

/-- `FAISSVectorStore.saveIndex(filepath)`: write the faiss artifact at the
path and the JSON document list at `path + '.docs.json'` (writes succeed in
this model; the artifacts are stored as values, as JSON round-trips the
document records). -/
def saveIndex (s : StoreState) (fs : FS) (path : List Char) : FS :=
  { idxFile := fun p => if p = path then some ⟨s.indexDim, s.vectors⟩ else fs.idxFile p,
    docFile := fun p => if p = path then some (some s.documents) else fs.docFile p }

/-- `FAISSVectorStore.loadIndex(filepath)`: `this.index = FaissStore.read(filepath)`
first, `this.documents = JSON.parse(readFileSync(filepath + '.docs.json'))`
second; each step throws on a missing or unparseable file, and a throw
leaves every assignment already made in place. -/
def loadIndex (s : StoreState) (fs : FS) (path : List Char) :
    Except JsErr Unit × StoreState :=
  match fs.idxFile path with
  | none => (.error .fileMissing, s)
  | some art =>
    match fs.docFile path with
    | none => (.error .fileMissing,
        { s with indexDim := art.dim, vectors := art.vectors })
    | some none => (.error .corruptData,
        { s with indexDim := art.dim, vectors := art.vectors })
    | some (some docs) => (.ok (),
        { s with indexDim := art.dim, vectors := art.vectors, documents := docs })

/-- `FAISSVectorStore.getDocumentCount()`. -/
def getDocumentCount (s : StoreState) : ℕ := s.documents.length

/-- `FAISSVectorStore.clear()`: a fresh `IndexFlatL2(this.dimension)` and an
empty document list. -/
def clearStore (s : StoreState) : StoreState :=
  { s with indexDim := s.ctorDim, vectors := [], documents := [] }

/-- `FAISSVectorStore.getAllDocuments()`: a (defensive copy of) the document
list. -/
def getAllDocuments (s : StoreState) : List Doc := s.documents

/-! ### Operation sequences over one store -/

/-- One public operation on a `FAISSVectorStore`. -/
inductive StoreOp where
  | add (documents : List Doc)
  | search (query : List Char) (topK : ℕ)
  | clear
  | save (path : List Char)
  | load (path : List Char)

/-- Run one operation, keeping the resulting store and file system
(whether or not the operation threw).  `search` reads but never mutates. -/
def runOp (embed : List Char → List ℚ) (D : ℕ) :
    StoreState × FS → StoreOp → StoreState × FS
  | (s, fs), .add documents => ((addDocuments embed D s documents).2, fs)
  | (s, fs), .search _ _ => (s, fs)
  | (s, fs), .clear => (clearStore s, fs)
  | (s, fs), .save path => (s, saveIndex s fs path)
  | (s, fs), .load path => ((loadIndex s fs path).2, fs)

/-- Run a sequence of operations from a freshly constructed store and an
empty file system. -/
def runOps (embed : List Char → List ℚ) (D dimension : ℕ)
    (ops : List StoreOp) : StoreState × FS :=
  ops.foldl (runOp embed D) (freshStore dimension, emptyFS)

/-- The paired-collections invariant of `FAISSVectorStore`: the faiss index
stores exactly one vector per document, at the same ordinal position, and
that vector is the embedding of the document's content. -/
def StoreInv (embed : List Char → List ℚ) (s : StoreState) : Prop :=
  s.vectors = s.documents.map (docEmbed embed)

/-- Consistency of saved artifacts: wherever a faiss artifact exists on
disk, the parallel document file exists, parses, and pairs with it. -/
def FSInv (embed : List Char → List ℚ) (fs : FS) : Prop :=
  ∀ p a, fs.idxFile p = some a →
    ∃ ds, fs.docFile p = some (some ds) ∧ a.vectors = ds.map (docEmbed embed)

/-! ### General lemmas -/

theorem dotProduct_comm (a b : List ℚ) : dotProduct a b = dotProduct b a := by
  unfold dotProduct
  rw [← List.zip_swap a b, List.map_map]
  congr 1
  congr 1
  funext p
  show p.1 * p.2 = p.2 * p.1
  exact mul_comm p.1 p.2

theorem sumSquares_eq_zero_of_all_zero {v : List ℚ} (h : ∀ x ∈ v, x = 0) :
    sumSquares v = 0 := by
  unfold sumSquares
  apply List.sum_eq_zero
  intro x hx
  rcases List.mem_map.mp hx with ⟨y, hy, rfl⟩
  rw [h y hy]; ring

/-! ### C9: cosine similarity symmetry, zero magnitude, dimension mismatch -/

/-- C9: for equal-length vectors `cosineSimilarity` is symmetric; it returns
the defined value `0` whenever either vector is the zero vector (whose
magnitude is `sqrt 0 = 0`); and it fails with the dimension-mismatch error
on vectors of unequal length.  (Symmetry is proved for all vectors: on a
length mismatch both orders fail identically.) -/
theorem cosineSimilarity_spec (sqrt : ℚ → ℚ) (h0 : sqrt 0 = 0) :
    (∀ a b : List ℚ, cosineSimilarity sqrt a b = cosineSimilarity sqrt b a) ∧
    (∀ a b : List ℚ, a.length = b.length →
      ((∀ x ∈ a, x = 0) ∨ (∀ x ∈ b, x = 0)) →
      cosineSimilarity sqrt a b = .ok 0) ∧
    (∀ a b : List ℚ, a.length ≠ b.length →
      cosineSimilarity sqrt a b = .error .dimensionMismatch) := by
  refine ⟨?_, ?_, ?_⟩
  · intro a b
    unfold cosineSimilarity cosineValue
    by_cases hlen : a.length = b.length
    · rw [if_neg (show ¬a.length ≠ b.length from fun h => h hlen),
        if_neg (show ¬b.length ≠ a.length from fun h => h hlen.symm)]
      dsimp only
      rw [dotProduct_comm, mul_comm (sqrt (sumSquares b)) (sqrt (sumSquares a))]
      by_cases hz : sqrt (sumSquares a) = 0 ∨ sqrt (sumSquares b) = 0
      · rw [if_pos hz, if_pos (Or.symm hz)]
      · rw [if_neg hz, if_neg (fun hc => hz (Or.symm hc))]
    · rw [if_pos hlen, if_pos (fun h => hlen h.symm)]
  · intro a b hlen hz
    unfold cosineSimilarity cosineValue
    rw [if_neg (show ¬a.length ≠ b.length from fun h => h hlen)]
    dsimp only
    rcases hz with hz | hz
    · rw [if_pos (Or.inl (by rw [sumSquares_eq_zero_of_all_zero hz, h0]))]
    · rw [if_pos (Or.inr (by rw [sumSquares_eq_zero_of_all_zero hz, h0]))]
  · intro a b hlen
    unfold cosineSimilarity
    rw [if_pos hlen]

/-- Witness for C9 at a concrete square root model, concrete zero vector
`[0, 0]` and concrete `[1, 2]`. -/
theorem cosineSimilarity_spec_witness :
    ((fun q : ℚ => if q = 0 then 0 else 1) 0 = 0) ∧
    cosineSimilarity (fun q : ℚ => if q = 0 then 0 else 1) [0, 0] [1, 2] = .ok 0 := by
  refine ⟨by decide, ?_⟩
  exact (cosineSimilarity_spec _ (by decide)).2.1 [0, 0] [1, 2] (by decide)
    (.inl (by decide))

/-! ### C5: save / load round-trip -/

/-- C5: for every store (holding its documents `S` in order), `saveIndex`
followed by `loadIndex` on a freshly constructed instance succeeds,
`getDocumentCount` equals `|S|`, and `getAllDocuments` returns exactly `S`
(same ids, contents and metadata, in the original order). -/
theorem saveIndex_loadIndex_roundtrip (s : StoreState) (fs : FS)
    (path : List Char) (d : ℕ) :
    (loadIndex (freshStore d) (saveIndex s fs path) path).1 = .ok () ∧
    getDocumentCount (loadIndex (freshStore d) (saveIndex s fs path) path).2 =
      s.documents.length ∧
    getAllDocuments (loadIndex (freshStore d) (saveIndex s fs path) path).2 =
      s.documents := by
  simp [loadIndex, saveIndex, getDocumentCount, getAllDocuments]

/-! ### C4: loadIndex failure atomicity (violated by the code) -/

/-- C4 evaluated at a failing input: a store holding one vector and one
document, a file system where the faiss artifact at path `"p"` exists but
`"p.docs.json"` is missing.  `loadIndex` fails, yet the store's vector index
has been replaced while the old document list is kept — a partial replace,
contradicting the claim that the state is identical to the state before the
call. -/
theorem loadIndex_partial_replace :
    (loadIndex ⟨1, 1, [[5]], [⟨['a'], ['x'], []⟩]⟩
        ⟨fun p => if p = ['p'] then some ⟨1, [[7]]⟩ else none, fun _ => none⟩
        ['p']).1 = .error .fileMissing ∧
    (loadIndex ⟨1, 1, [[5]], [⟨['a'], ['x'], []⟩]⟩
        ⟨fun p => if p = ['p'] then some ⟨1, [[7]]⟩ else none, fun _ => none⟩
        ['p']).2.documents = [⟨['a'], ['x'], []⟩] ∧
    (loadIndex ⟨1, 1, [[5]], [⟨['a'], ['x'], []⟩]⟩
        ⟨fun p => if p = ['p'] then some ⟨1, [[7]]⟩ else none, fun _ => none⟩
        ['p']).2.vectors = [[7]] ∧
    ([[7]] : List (List ℚ)) ≠ [[5]] := by
  refine ⟨?_, ?_, ?_, by decide⟩ <;> simp [loadIndex]

/-! ### C6: missing validation of the chunking configuration (code bug) -/

/-- C6 evaluated at failing inputs.  First: with `overlap = chunkSize = 2`
on a six-character text the window never advances, so the loop never
terminates — for every fuel the loop is still running; `chunkText` (whose
fuel is `length + 1`) reports the non-termination as `none` instead of
rejecting the configuration.  Second: `chunkSize = 0` is not rejected
either — the falsy `0` silently becomes the default `1000` and output is
produced. -/
theorem chunkText_invalid_config_not_rejected :
    (∀ fuel, chunkLoop "abcdef".toList 2 2 0 fuel = none) ∧
    chunkText "abcdef".toList (some 2) (some 2) = none ∧
    chunkText "abc".toList (some 0) none = some ["abc".toList] := by
  have hloop : ∀ fuel (start : ℤ), start < ("abcdef".toList.length : ℤ) →
      chunkLoop "abcdef".toList 2 2 start fuel = none := by
    intro fuel
    induction fuel with
    | zero => intro start _; rfl
    | succ n ih =>
      intro start hs
      simp only [chunkLoop, if_pos hs]
      rw [ih (start + (2 - 2)) (by omega)]
      rfl
  refine ⟨fun fuel => hloop fuel 0 (by decide), ?_, by decide⟩
  · show chunkLoop "abcdef".toList 2 2 0 ("abcdef".toList.length + 1) = none
    exact hloop _ 0 (by decide)

/-! ### C7: chunking the empty string -/

/-- C7 counterexample: on the empty text with a valid configuration,
`chunkText` returns the single-element sequence containing the empty string
(the `text.length <= chunkSize` branch returns `[text]`), not the empty
sequence the claim states for all three splitters. -/
theorem chunkText_empty_counterexample :
    chunkText [] (some 3) (some 1) = some [[]] ∧
    (([[]] : List (List Char)) ≠ []) := by
  exact ⟨by decide, by decide⟩

/-- C7 amended: on the empty text with any options whose effective chunk
size is positive, `chunkBySentences` and `chunkByParagraphs` return the
empty sequence, while `chunkText` returns the single-element sequence
containing the empty string. -/
theorem chunk_empty_text (optSize optOverlap : Option ℤ)
    (h : 0 < jsOrDefault 1000 optSize) :
    chunkText [] optSize optOverlap = some [[]] ∧
    chunkBySentences [] optSize optOverlap = [] ∧
    chunkByParagraphs [] optSize optOverlap = [] := by
  refine ⟨?_, ?_, ?_⟩
  · unfold chunkText
    rw [if_pos (by simpa using le_of_lt h)]
  · unfold chunkBySentences
    show accumSentences (jsOrDefault 1000 optSize) (jsSentences []) [] = []
    have hs : jsSentences [] = [[]] := by decide
    rw [hs]
    unfold accumSentences
    split
    · simp [accumSentences]
    · simp [accumSentences]
  · unfold chunkByParagraphs
    have hsb : (splitBlank []).filter (fun p => (jsTrim p).length ≠ 0) = [] := by
      rw [show splitBlank [] = [[]] from by simp [splitBlank, findSep]]
      decide
    rw [hsb]
    simp [accumParagraphs]

/-- Witness for C7 with the default options. -/
theorem chunk_empty_text_witness :
    (0 : ℤ) < jsOrDefault 1000 none ∧
    (chunkText [] none none = some [[]] ∧
     chunkBySentences [] none none = [] ∧
     chunkByParagraphs [] none none = []) :=
  ⟨by decide, chunk_empty_text none none (by decide)⟩

/-! ### Lemmas about whitespace, trimming and blank-line splitting -/

theorem mem_dropWhile_of_not {α : Type} {p : α → Bool} {c : α} :
    ∀ {l : List α}, c ∈ l → p c = false → c ∈ l.dropWhile p := by
  intro l
  induction l with
  | nil => intro h _; cases h
  | cons x xs ih =>
    intro hc hp
    by_cases hx : p x
    · rw [List.dropWhile_cons_of_pos hx]
      rcases List.mem_cons.mp hc with rfl | hc'
      · rw [hp] at hx; cases hx
      · exact ih hc' hp
    · rw [List.dropWhile_cons_of_neg hx]
      exact hc

theorem mem_jsTrim {c : Char} {t : List Char} (hc : c ∈ t)
    (hw : isJsWs c = false) : c ∈ jsTrim t := by
  unfold jsTrim
  exact List.mem_reverse.mpr (mem_dropWhile_of_not
    (List.mem_reverse.mpr (mem_dropWhile_of_not hc hw)) hw)

theorem jsTrim_ne_nil {c : Char} {t : List Char} (hc : c ∈ t)
    (hw : isJsWs c = false) : jsTrim t ≠ [] :=
  List.ne_nil_of_mem (mem_jsTrim hc hw)

theorem findSep_decomp : ∀ (t p r : List Char), findSep t = some (p, r) →
    ∃ sep, t = p ++ sep ++ r ∧ ∀ x ∈ sep, x = '\n' := by
  intro t
  induction t with
  | nil => intro p r h; simp [findSep] at h
  | cons c cs ih =>
    intro p r h
    simp only [findSep] at h
    split at h
    · rename_i hcnl
      cases h
      refine ⟨c :: cs.takeWhile (· = '\n'), ?_, ?_⟩
      · show c :: cs = ([] ++ (c :: cs.takeWhile (· = '\n'))) ++ cs.dropWhile (· = '\n')
        simp only [List.nil_append, List.cons_append]
        rw [List.takeWhile_append_dropWhile]
      · intro x hx
        rcases List.mem_cons.mp hx with rfl | hx'
        · exact hcnl.1
        · simpa using List.mem_takeWhile_imp hx'
    · rcases Option.map_eq_some'.mp h with ⟨⟨p', r'⟩, hfs, heq⟩
      cases heq
      rcases ih p' r' hfs with ⟨sep, hdec, hnl⟩
      exact ⟨sep, by simp [hdec], hnl⟩

theorem splitBlank_covers_aux {c : Char} (hw : isJsWs c = false) :
    ∀ (n : ℕ) (t : List Char), t.length ≤ n → c ∈ t →
      ∃ piece ∈ splitBlank t, c ∈ piece := by
  intro n
  induction n with
  | zero =>
    intro t hlen hc
    rw [List.length_eq_zero.mp (Nat.le_zero.mp hlen)] at hc
    cases hc
  | succ n ih =>
    intro t hlen hc
    rw [splitBlank]
    split
    · exact ⟨t, List.mem_singleton_self t, hc⟩
    · rename_i p r hfs
      rcases findSep_decomp t p r hfs with ⟨sep, hdec, hnl⟩
      rw [hdec] at hc
      rcases List.mem_append.mp hc with hc' | hcr
      · rcases List.mem_append.mp hc' with hcp | hcs
        · exact ⟨p, List.mem_cons_self p _, hcp⟩
        · exfalso
          rw [hnl c hcs] at hw
          simp [isJsWs] at hw
      · have hrlen : r.length ≤ n :=
          Nat.lt_succ_iff.mp (Nat.lt_of_lt_of_le (findSep_length t p r hfs) hlen)
        rcases ih r hrlen hcr with ⟨piece, hpm, hcpiece⟩
        exact ⟨piece, List.mem_cons_of_mem p hpm, hcpiece⟩

theorem splitBlank_covers {c : Char} (hw : isJsWs c = false)
    (t : List Char) (hc : c ∈ t) : ∃ piece ∈ splitBlank t, c ∈ piece :=
  splitBlank_covers_aux hw t.length t le_rfl hc

theorem accumParagraphs_ne_nil (chunkSize : ℤ) :
    ∀ (ps : List (List Char)) (cur : List Char),
      (∀ p ∈ ps, p ≠ []) → (cur ≠ [] ∨ ps ≠ []) →
      accumParagraphs chunkSize ps cur ≠ [] := by
  intro ps
  induction ps with
  | nil =>
    intro cur _ hne
    rcases hne with hcur | habs
    · simp [accumParagraphs, hcur]
    · exact absurd rfl habs
  | cons p ps ih =>
    intro cur hall hne
    unfold accumParagraphs
    split
    · refine ih _ (fun q hq => hall q (List.mem_cons_of_mem p hq)) (Or.inl ?_)
      have hp : p ≠ [] := hall p (List.mem_cons_self p ps)
      intro habs
      rcases List.append_eq_nil.mp habs with ⟨-, hp'⟩
      exact hp hp'
    · by_cases hcur : cur ≠ []
      · simp [hcur]
      · rw [if_neg hcur]
        rw [List.nil_append]
        exact ih p (fun q hq => hall q (List.mem_cons_of_mem p hq))
          (Or.inl (hall p (List.mem_cons_self p ps)))

theorem find?_map_setKey (k : List Char) (v : JVal) :
    ∀ (m : Metadata), m.any (fun p => p.1 = k) = true →
    (m.map (fun p => if p.1 = k then (k, v) else p)).find?
      (fun p => p.1 = k) = some (k, v) := by
  intro m
  induction m with
  | nil => intro h; simp at h
  | cons q m ih =>
    intro h
    rw [List.map_cons]
    by_cases hq : q.1 = k
    · rw [if_pos hq]
      exact List.find?_cons_of_pos _ (by simp)
    · rw [if_neg hq]
      rw [List.find?_cons_of_neg _ (by simp [hq])]
      apply ih
      rcases List.any_eq_true.mp h with ⟨x, hx, hxk⟩
      rcases List.mem_cons.mp hx with rfl | hx'
      · exact absurd (of_decide_eq_true hxk) hq
      · exact List.any_eq_true.mpr ⟨x, hx', hxk⟩

theorem getKey_setKey_same (k : List Char) (v : JVal) (m : Metadata) :
    getKey k (setKey k v m) = some v := by
  unfold getKey setKey
  split
  · rename_i h
    rw [find?_map_setKey k v m h]
    rfl
  · rename_i h
    rw [List.find?_append]
    have hnone : m.find? (fun p => p.1 = k) = none := by
      rw [List.find?_eq_none]
      intro x hx hxk
      exact h (List.any_eq_true.mpr ⟨x, hx, hxk⟩)
    rw [hnone]
    simp [List.find?]

theorem find?_map_setKey_other (k k' : List Char) (v : JVal) (hkk : k' ≠ k) :
    ∀ (m : Metadata),
    (m.map (fun p => if p.1 = k' then (k', v) else p)).find? (fun p => p.1 = k) =
      m.find? (fun p => p.1 = k) := by
  intro m
  induction m with
  | nil => rfl
  | cons q m ih =>
    rw [List.map_cons]
    by_cases hq : q.1 = k'
    · rw [if_pos hq]
      rw [List.find?_cons_of_neg _ (by simp [hkk])]
      rw [List.find?_cons_of_neg _ (by simp [hq, hkk])]
      exact ih
    · rw [if_neg hq]
      by_cases hqk : q.1 = k
      · rw [List.find?_cons_of_pos _ (by simp [hqk]),
          List.find?_cons_of_pos _ (by simp [hqk])]
      · rw [List.find?_cons_of_neg _ (by simp [hqk]),
          List.find?_cons_of_neg _ (by simp [hqk])]
        exact ih

theorem getKey_setKey_other (k k' : List Char) (v : JVal) (m : Metadata)
    (hkk : k' ≠ k) : getKey k (setKey k' v m) = getKey k m := by
  unfold getKey setKey
  split
  · rw [find?_map_setKey_other k k' v hkk m]
  · rw [List.find?_append]
    cases hfm : m.find? (fun p => p.1 = k) with
    | some x => rfl
    | none => simp [List.find?, hkk]

/-! ### C8: chunkWithMetadata stamps and the non-empty-input claim -/

/-- C8 counterexample: the text `"\n\n"` is non-empty, yet
`chunkWithMetadata` returns zero chunks — the blank-line split produces only
whitespace-only pieces, all of which are filtered out — contradicting the
claim that every non-empty input yields at least one chunk. -/
theorem chunkWithMetadata_whitespace_counterexample :
    chunkWithMetadata ['\n', '\n'] [] none none = [] ∧
    (['\n', '\n'] : List Char) ≠ [] := by
  have hsb : splitBlank ['\n', '\n'] = [[], []] := by
    rw [splitBlank]
    simp [findSep]
    rw [splitBlank]
    simp [findSep]
  have hcbp : chunkByParagraphs ['\n', '\n'] none none = [] := by
    show accumParagraphs (jsOrDefault 1000 none)
      ((splitBlank ['\n', '\n']).filter (fun p => (jsTrim p).length ≠ 0)) [] = []
    rw [hsb]
    decide
  refine ⟨?_, by decide⟩
  show (chunkByParagraphs ['\n', '\n'] none none).enum.map _ = []
  rw [hcbp]
  rfl

/-- C8 amended: for every input text containing at least one non-whitespace
character (rather than every non-empty text) and any options,
`chunkWithMetadata` returns at least one chunk, each returned chunk's
metadata carries `chunkIndex` equal to its 0-based position in the returned
sequence, and `totalChunks` equal to the length of the returned sequence. -/
theorem chunkWithMetadata_spec (text : List Char) (metadata : Metadata)
    (optSize optOverlap : Option ℤ)
    (h : ∃ c ∈ text, isJsWs c = false) :
    chunkWithMetadata text metadata optSize optOverlap ≠ [] ∧
    ∀ (i : ℕ) (hi : i < (chunkWithMetadata text metadata optSize optOverlap).length),
      getKey ("chunkIndex".toList)
          ((chunkWithMetadata text metadata optSize optOverlap)[i]).metadata =
        some (.jnum i) ∧
      getKey ("totalChunks".toList)
          ((chunkWithMetadata text metadata optSize optOverlap)[i]).metadata =
        some (.jnum (chunkWithMetadata text metadata optSize optOverlap).length) := by
  rcases h with ⟨c, hc, hw⟩
  have hchunks : chunkByParagraphs text optSize optOverlap ≠ [] := by
    show accumParagraphs (jsOrDefault 1000 optSize)
      ((splitBlank text).filter (fun p => (jsTrim p).length ≠ 0)) [] ≠ []
    rcases splitBlank_covers hw text hc with ⟨piece, hpm, hcp⟩
    have hppred : ((jsTrim piece).length ≠ 0) := by
      intro habs
      exact jsTrim_ne_nil hcp hw (List.length_eq_zero.mp habs)
    have hpmem : piece ∈ (splitBlank text).filter (fun p => (jsTrim p).length ≠ 0) :=
      List.mem_filter.mpr ⟨hpm, by simpa using hppred⟩
    refine accumParagraphs_ne_nil _ _ [] ?_ (Or.inr (List.ne_nil_of_mem hpmem))
    intro p hp
    have hpp := (List.mem_filter.mp hp).2
    intro habs
    rw [habs] at hpp
    simp [jsTrim] at hpp
  have hlen : (chunkWithMetadata text metadata optSize optOverlap).length =
      (chunkByParagraphs text optSize optOverlap).length := by
    show ((chunkByParagraphs text optSize optOverlap).enum.map _).length = _
    rw [List.length_map, List.enum_length]
  constructor
  · intro habs
    apply hchunks
    have : (chunkWithMetadata text metadata optSize optOverlap).length = 0 := by
      rw [habs]; rfl
    rw [hlen] at this
    exact List.length_eq_zero.mp this
  · intro i hi
    have hi' : i < (chunkByParagraphs text optSize optOverlap).length := hlen ▸ hi
    have hgm : (chunkWithMetadata text metadata optSize optOverlap)[i] =
        { text := (chunkByParagraphs text optSize optOverlap)[i],
          metadata := setKey ("totalChunks".toList)
            (.jnum (chunkByParagraphs text optSize optOverlap).length)
            (setKey ("chunkIndex".toList) (.jnum i) metadata) } := by
      show ((chunkByParagraphs text optSize optOverlap).enum.map _)[i] = _
      rw [List.getElem_map, List.getElem_enum]
    rw [hgm]
    refine ⟨?_, ?_⟩
    · rw [getKey_setKey_other _ _ _ _ (by decide), getKey_setKey_same]
    · rw [getKey_setKey_same, hlen]

/-- Witness for C8 at the concrete text `"ab"`, empty base metadata and
default options. -/
theorem chunkWithMetadata_spec_witness :
    (∃ c ∈ ("ab".toList), isJsWs c = false) ∧
    (chunkWithMetadata "ab".toList [] none none ≠ [] ∧
     ∀ (i : ℕ) (hi : i < (chunkWithMetadata "ab".toList [] none none).length),
       getKey ("chunkIndex".toList)
           ((chunkWithMetadata "ab".toList [] none none)[i]).metadata =
         some (.jnum i) ∧
       getKey ("totalChunks".toList)
           ((chunkWithMetadata "ab".toList [] none none)[i]).metadata =
         some (.jnum (chunkWithMetadata "ab".toList [] none none).length)) :=
  ⟨⟨'a', by decide⟩, chunkWithMetadata_spec "ab".toList [] none none ⟨'a', by decide⟩⟩

/-! ### C10: the paired-collections invariant across operation sequences -/

theorem collectExcept_generateEmbedding_ok (embed : List Char → List ℚ) :
    ∀ (texts : List (List Char)) (embs : List (List ℚ)),
      collectExcept (texts.map (generateEmbedding embed)) = .ok embs →
      embs = texts.map (fun t => embed (jsTrim t)) := by
  intro texts
  induction texts with
  | nil =>
    intro embs h
    simp only [List.map_nil, collectExcept] at h
    cases h
    rfl
  | cons t ts ih =>
    intro embs h
    simp only [List.map_cons, collectExcept] at h
    cases hg : generateEmbedding embed t with
    | error e => rw [hg] at h; cases h
    | ok v =>
      rw [hg] at h
      cases hc : collectExcept (ts.map (generateEmbedding embed)) with
      | error e => rw [hc] at h; cases h
      | ok rest =>
        rw [hc] at h
        cases h
        have hv : v = embed (jsTrim t) := by
          unfold generateEmbedding at hg
          split at hg
          · cases hg
          · cases hg; rfl
        rw [hv, ih rest hc, List.map_cons]

theorem addLoop_inv (embed : List Char → List ℚ) (D : ℕ) :
    ∀ (pairs : List (Doc × List ℚ)) (s : StoreState) (i : ℕ),
      StoreInv embed s → (∀ pr ∈ pairs, pr.2 = docEmbed embed pr.1) →
      StoreInv embed (addLoop D s pairs i).2 := by
  intro pairs
  induction pairs with
  | nil => intro s i hs _; exact hs
  | cons pr rest ih =>
    intro s i hs hall
    rcases pr with ⟨d, e⟩
    unfold addLoop
    split
    · exact hs
    · split
      · exact hs
      · refine ih _ (i + 1) ?_ (fun q hq => hall q (List.mem_cons_of_mem _ hq))
        unfold StoreInv at hs ⊢
        have he : e = docEmbed embed d := hall (d, e) (List.mem_cons_self _ _)
        simp [hs, he]

theorem zip_self_map {α β : Type} (f : α → β) :
    ∀ (l : List α), l.zip (l.map f) = l.map (fun a => (a, f a)) := by
  intro l
  induction l with
  | nil => rfl
  | cons a l ih => simp [List.zip_cons_cons, ih]

theorem addDocuments_inv (embed : List Char → List ℚ) (D : ℕ) (s : StoreState)
    (documents : List Doc) (hs : StoreInv embed s) :
    StoreInv embed (addDocuments embed D s documents).2 := by
  unfold addDocuments
  split
  · exact hs
  · cases hg : generateEmbeddings embed (documents.map (·.content)) with
    | error e => exact hs
    | ok embs =>
      show StoreInv embed (addLoop D s (documents.zip embs) 0).2
      refine addLoop_inv embed D _ s 0 hs ?_
      intro pr hpr
      have hemb : embs = documents.map (docEmbed embed) := by
        unfold generateEmbeddings at hg
        split at hg
        · cases hg
        · have := collectExcept_generateEmbedding_ok embed _ _ hg
          rw [this, List.map_map]
          rfl
      rw [hemb, zip_self_map] at hpr
      rcases List.mem_map.mp hpr with ⟨d, _, rfl⟩
      rfl

theorem runOp_inv (embed : List Char → List ℚ) (D : ℕ)
    (s : StoreState) (fs : FS) (op : StoreOp)
    (hs : StoreInv embed s) (hfs : FSInv embed fs) :
    StoreInv embed (runOp embed D (s, fs) op).1 ∧
    FSInv embed (runOp embed D (s, fs) op).2 := by
  cases op with
  | add documents => exact ⟨addDocuments_inv embed D s documents hs, hfs⟩
  | search q k => exact ⟨hs, hfs⟩
  | clear =>
    refine ⟨?_, hfs⟩
    show StoreInv embed (clearStore s)
    unfold StoreInv clearStore
    rfl
  | save path =>
    refine ⟨hs, ?_⟩
    show FSInv embed (saveIndex s fs path)
    intro p a hp
    unfold saveIndex at hp
    dsimp only at hp
    by_cases hpp : p = path
    · rw [if_pos hpp] at hp
      cases hp
      exact ⟨s.documents, by simp [saveIndex, hpp], hs⟩
    · rw [if_neg hpp] at hp
      rcases hfs p a hp with ⟨ds, hds, hvs⟩
      exact ⟨ds, by simp [saveIndex, hpp, hds], hvs⟩
  | load path =>
    refine ⟨?_, hfs⟩
    show StoreInv embed (loadIndex s fs path).2
    unfold loadIndex
    cases hidx : fs.idxFile path with
    | none => exact hs
    | some art =>
      rcases hfs path art hidx with ⟨ds, hds, hvs⟩
      rw [hds]
      exact hvs

theorem foldl_runOp_inv (embed : List Char → List ℚ) (D : ℕ) :
    ∀ (ops : List StoreOp) (s : StoreState) (fs : FS),
      StoreInv embed s → FSInv embed fs →
      StoreInv embed (ops.foldl (runOp embed D) (s, fs)).1 ∧
      FSInv embed (ops.foldl (runOp embed D) (s, fs)).2 := by
  intro ops
  induction ops with
  | nil => intro s fs hs hfs; exact ⟨hs, hfs⟩
  | cons op ops ih =>
    intro s fs hs hfs
    rw [List.foldl_cons]
    have h := runOp_inv embed D s fs op hs hfs
    cases hstep : runOp embed D (s, fs) op with
    | mk s' fs' =>
      rw [hstep] at h
      exact ih s' fs' h.1 h.2

/-- C10: after every sequence of store operations (addDocuments — including
one that fails part-way on a dimension mismatch, which keeps every pair
appended before the failure — search, clear, saveIndex, loadIndex) starting
from a freshly constructed store, the faiss index holds exactly as many
vectors as the parallel document list, and the vector at each ordinal
position is the embedding of the document at the same position. -/
theorem store_pairing_invariant (embed : List Char → List ℚ)
    (D dimension : ℕ) (ops : List StoreOp) :
    (runOps embed D dimension ops).1.vectors.length =
      (runOps embed D dimension ops).1.documents.length ∧
    (runOps embed D dimension ops).1.vectors =
      (runOps embed D dimension ops).1.documents.map (docEmbed embed) := by
  have h := (foldl_runOp_inv embed D ops (freshStore dimension) emptyFS
    (by unfold StoreInv freshStore; rfl)
    (by intro p a hp; cases hp)).1
  unfold StoreInv at h
  unfold runOps
  exact ⟨by rw [h, List.length_map], h⟩

/-! ### C3: search guards and ordering -/

/-- C3: `search` fails with the invalid-input error on an empty or
whitespace-only query, and with the empty-store error on a store holding
zero documents — in both cases before any embedding call (the trace of
embedding calls is empty); on a store holding at least one document with a
well-formed query it issues exactly one embedding call and returns exactly
`min topK count` documents, ordered nearest-first by L2 distance between the
query's embedding and the stored vectors. -/
theorem search_spec (embed : List Char → List ℚ) (s : StoreState)
    (query : List Char) (topK : ℕ) :
    ((jsTrim query).length = 0 →
      search embed s query topK = (.error .queryEmpty, [])) ∧
    ((jsTrim query).length ≠ 0 → s.documents.length = 0 →
      search embed s query topK = (.error .storeEmpty, [])) ∧
    ((jsTrim query).length ≠ 0 → 1 ≤ s.documents.length →
      s.vectors.length = s.documents.length →
      (embed (jsTrim query)).length = s.indexDim →
      searchPost embed s query topK) := by
  refine ⟨?_, ?_, ?_⟩
  · intro hq
    unfold search
    rw [if_pos hq]
  · intro hq hn
    unfold search
    rw [if_neg hq, if_pos hn]
  · intro hq hn hlen hdim
    have hge : generateEmbedding embed query = .ok (embed (jsTrim query)) := by
      unfold generateEmbedding
      rw [if_neg hq]
    set qe := embed (jsTrim query) with hqe
    set n := s.documents.length with hns
    set k := min topK n with hk
    set pairs := (List.range s.vectors.length).map
      (fun i => (i, sqDist qe (s.vectors.getD i []))) with hpairs
    set sorted := pairs.insertionSort distLe with hsorted
    have hmem_pairs : ∀ pr ∈ pairs, pr.2 = sqDist qe (s.vectors.getD pr.1 []) := by
      intro pr hpr
      rcases List.mem_map.mp hpr with ⟨i, _, rfl⟩
      rfl
    have hmem_sorted : ∀ pr ∈ sorted, pr.2 = sqDist qe (s.vectors.getD pr.1 []) :=
      fun pr hpr => hmem_pairs pr
        ((List.perm_insertionSort distLe pairs).mem_iff.mp hpr)
    have hmem_take : ∀ pr ∈ sorted.take k, pr.2 = sqDist qe (s.vectors.getD pr.1 []) :=
      fun pr hpr => hmem_sorted pr ((List.take_sublist k sorted).mem hpr)
    have hidx : idxSearch s qe k = .ok ((sorted.take k).map (·.1)) := by
      unfold idxSearch
      rw [if_neg (fun hc => hc hdim)]
    refine ⟨(sorted.take k).map (·.1), ?_, ?_, ?_, ?_, ?_⟩
    · unfold search
      rw [if_neg hq, if_neg (by omega)]
      rw [hge]
      show (match idxSearch s qe (min topK s.documents.length) with
        | .error e => (Except.error e, [query])
        | .ok labels =>
          (.ok (labels.map (fun i => s.documents.getD i ⟨[], [], []⟩)), [query])) = _
      rw [← hns, ← hk, hidx]
    · have hplen : pairs.length = n := by
        rw [hpairs, List.length_map, List.length_range, hlen]
      rw [List.length_map, List.length_take, List.length_insertionSort, hplen,
        ← hns, hk]
      omega
    · have hpairs_nodup : pairs.Nodup := by
        refine List.Nodup.map ?_ (List.nodup_range _)
        intro a b hab
        exact congrArg Prod.fst hab
      have hsorted_nodup : sorted.Nodup :=
        ((List.perm_insertionSort distLe pairs).nodup_iff).mpr hpairs_nodup
      have htake_nodup : (sorted.take k).Nodup :=
        List.Nodup.sublist (List.take_sublist k sorted) hsorted_nodup
      refine List.Nodup.map_on ?_ htake_nodup
      intro x hx y hy hxy
      have hx2 := hmem_take x hx
      have hy2 := hmem_take y hy
      have : x.2 = y.2 := by rw [hx2, hy2, hxy]
      exact Prod.ext hxy this
    · intro i hi
      rcases List.mem_map.mp hi with ⟨pr, hpr, rfl⟩
      have hpp : pr ∈ pairs :=
        (List.perm_insertionSort distLe pairs).mem_iff.mp
          ((List.take_sublist k sorted).mem hpr)
      rcases List.mem_map.mp hpp with ⟨j, hj, rfl⟩
      have := List.mem_range.mp hj
      omega
    · have hps : sorted.Pairwise distLe := List.sorted_insertionSort distLe pairs
      have hpt : (sorted.take k).Pairwise distLe :=
        List.Pairwise.sublist (List.take_sublist k sorted) hps
      rw [List.pairwise_map]
      refine List.Pairwise.imp_of_mem ?_ hpt
      intro a b ha hb hab
      have ha2 := hmem_take a ha
      have hb2 := hmem_take b hb
      rcases hab with h | ⟨h, _⟩
      · rw [← ha2, ← hb2]; exact le_of_lt h
      · rw [← ha2, ← hb2, h]

/-- Witness for C3: a two-document store (vectors `[0]` and `[3]`,
dimension 1), the constant embedder `fun _ => [1]`, the query `"q"` and
`topK = 5`. -/
theorem search_spec_witness :
    ((jsTrim ['q']).length ≠ 0 ∧
     1 ≤ (StoreState.mk 1 1 [[0], [3]]
        [⟨['a'], ['x'], []⟩, ⟨['b'], ['y'], []⟩]).documents.length ∧
     (StoreState.mk 1 1 [[0], [3]]
        [⟨['a'], ['x'], []⟩, ⟨['b'], ['y'], []⟩]).vectors.length =
       (StoreState.mk 1 1 [[0], [3]]
        [⟨['a'], ['x'], []⟩, ⟨['b'], ['y'], []⟩]).documents.length ∧
     ((fun _ => [1]) (jsTrim ['q']) : List ℚ).length =
       (StoreState.mk 1 1 [[0], [3]]
        [⟨['a'], ['x'], []⟩, ⟨['b'], ['y'], []⟩]).indexDim) ∧
    searchPost (fun _ => [1])
      (StoreState.mk 1 1 [[0], [3]] [⟨['a'], ['x'], []⟩, ⟨['b'], ['y'], []⟩])
      ['q'] 5 :=
  ⟨⟨by decide, by decide, by decide, by decide⟩,
    (search_spec (fun _ => [1])
      (StoreState.mk 1 1 [[0], [3]] [⟨['a'], ['x'], []⟩, ⟨['b'], ['y'], []⟩])
      ['q'] 5).2.2 (by decide) (by decide) (by decide) (by decide)⟩

/-! ### C2: the sliding-window chunker -/

theorem jsSubstring_eq (t : List Char) (a b : ℤ) (h0 : 0 ≤ a) (hab : a ≤ b)
    (hb : b ≤ (t.length : ℤ)) :
    jsSubstring t a b = (t.drop a.toNat).take (b - a).toNat := by
  unfold jsSubstring
  dsimp only
  have hx : max 0 (min a (t.length : ℤ)) = a := by omega
  have hy : max 0 (min b (t.length : ℤ)) = b := by omega
  rw [hx, hy]
  have hlo : min a b = a := by omega
  have hhi : max a b = b := by omega
  rw [hlo, hhi]

theorem chunkLoop_spec (text : List Char) (cs ov : ℤ)
    (hstep : 1 ≤ cs - ov) (hov : 0 ≤ ov) :
    ∀ (fuel : ℕ) (start : ℤ), 0 ≤ start →
      ((text.length : ℤ) - start).toNat < fuel →
      ∃ l, chunkLoop text cs ov start fuel = some l ∧
        (∀ i : ℕ, i < l.length ↔ start + i * (cs - ov) < (text.length : ℤ)) ∧
        (∀ (i : ℕ) (h : i < l.length),
          l[i] = (text.drop (start + i * (cs - ov)).toNat).take
            (min cs ((text.length : ℤ) - (start + i * (cs - ov)))).toNat) ∧
        ((text.length : ℤ) ≤ start → l = []) ∧
        (start < (text.length : ℤ) →
          ∃ c r, l = c :: r ∧
            c ++ (r.map (fun x => x.drop ov.toNat)).flatten =
              text.drop start.toNat) := by
  intro fuel
  induction fuel with
  | zero => intro start _ hfuel; omega
  | succ fuel ih =>
    intro start h0 hfuel
    by_cases hlt : start < (text.length : ℤ)
    · have h0' : (0 : ℤ) ≤ start + (cs - ov) := by omega
      have hfuel' : ((text.length : ℤ) - (start + (cs - ov))).toNat < fuel := by
        omega
      obtain ⟨l', hl', hcount', hcontent', hnil', hrec'⟩ :=
        ih (start + (cs - ov)) h0' hfuel'
      have hchunk : jsSubstring text start (min (start + cs) (text.length : ℤ)) =
          (text.drop start.toNat).take
            (min cs ((text.length : ℤ) - start)).toNat := by
        rw [jsSubstring_eq text start _ h0 (by omega) (by omega)]
        congr 1
        omega
      refine ⟨jsSubstring text start (min (start + cs) (text.length : ℤ)) :: l',
        ?_, ?_, ?_, ?_, ?_⟩
      · show chunkLoop text cs ov start (fuel + 1) = _
        unfold chunkLoop
        rw [if_pos hlt, hl']
        rfl
      · intro i
        cases i with
        | zero =>
          simp only [List.length_cons, Nat.cast_zero, zero_mul, add_zero]
          omega
        | succ j =>
          have hc := hcount' j
          have harith : start + ((j : ℕ) + 1 : ℕ) * (cs - ov) =
              (start + (cs - ov)) + (j : ℤ) * (cs - ov) := by
            push_cast
            ring
          rw [List.length_cons, harith]
          omega
      · intro i h
        cases i with
        | zero =>
          show jsSubstring text start (min (start + cs) (text.length : ℤ)) = _
          rw [hchunk]
          congr 2
          · congr 1
            push_cast
            ring
          · congr 2
            push_cast
            ring
        | succ j =>
          rw [List.getElem_cons_succ]
          have hj : j < l'.length := by
            have := List.length_cons
              (jsSubstring text start (min (start + cs) (text.length : ℤ))) l'
            omega
          rw [hcontent' j hj]
          have harith : (start + (cs - ov)) + (j : ℤ) * (cs - ov) =
              start + ((j : ℕ) + 1 : ℕ) * (cs - ov) := by
            push_cast
            ring
          rw [harith]
      · intro habs; omega
      · intro _
        refine ⟨_, l', rfl, ?_⟩
        rw [hchunk]
        by_cases hA : (text.length : ℤ) ≤ start + (cs - ov)
        · rw [hnil' hA]
          have hmin : min cs ((text.length : ℤ) - start) =
              (text.length : ℤ) - start := by omega
          rw [hmin]
          have hdlen : (text.drop start.toNat).length =
              ((text.length : ℤ) - start).toNat := by
            rw [List.length_drop]
            omega
          rw [List.take_of_length_le (le_of_eq hdlen)]
          simp
        · have hlt' : start + (cs - ov) < (text.length : ℤ) := by omega
          obtain ⟨c', r', hl'eq, hrec''⟩ := hrec' hlt'
          rw [hl'eq, List.map_cons, List.flatten_cons]
          rw [hl'eq] at hcontent'
          have hc0 : 0 < (c' :: r').length := by simp
          have hc'eq := hcontent' 0 hc0
          simp only [List.getElem_cons_zero, Nat.cast_zero, zero_mul,
            add_zero] at hc'eq
          by_cases hB : (text.length : ℤ) - start ≤ cs
          · -- the current chunk already reaches the end of the text;
            -- every later chunk is shorter than the overlap
            have hmin : min cs ((text.length : ℤ) - start) =
                (text.length : ℤ) - start := by omega
            rw [hmin]
            have hdlen : (text.drop start.toNat).length =
                ((text.length : ℤ) - start).toNat := by
              rw [List.length_drop]; omega
            rw [List.take_of_length_le (le_of_eq hdlen)]
            have hshort : ∀ (i : ℕ) (h : i < (c' :: r').length),
                ((c' :: r')[i]).length ≤ ov.toNat := by
              intro i h
              rw [hcontent' i h]
              have hmul : 0 ≤ (i : ℤ) * (cs - ov) :=
                mul_nonneg (by positivity) (by omega)
              have h1 := List.length_take_le
                (min cs ((text.length : ℤ) -
                  ((start + (cs - ov)) + (i : ℤ) * (cs - ov)))).toNat
                (text.drop ((start + (cs - ov)) + (i : ℤ) * (cs - ov)).toNat)
              omega
            have hcnil : c'.drop ov.toNat = [] :=
              List.drop_eq_nil_of_le (hshort 0 hc0)
            have hrnil : (r'.map (fun x => x.drop ov.toNat)).flatten = [] := by
              rw [List.flatten_eq_nil_iff]
              intro x hx
              rcases List.mem_map.mp hx with ⟨y, hy, rfl⟩
              rcases List.mem_iff_getElem.mp hy with ⟨j, hjl, rfl⟩
              refine List.drop_eq_nil_of_le ?_
              have := hshort (j + 1) (by simpa using Nat.succ_lt_succ hjl)
              rwa [List.getElem_cons_succ] at this
            rw [hcnil, hrnil]
            simp
          · -- the current chunk has full length `chunkSize`; the next chunk
            -- is longer than the overlap, so dropping the overlap of the
            -- tail continues exactly at `start + chunkSize`
            have hmin : min cs ((text.length : ℤ) - start) = cs := by omega
            rw [hmin]
            have hclen : ov.toNat ≤ c'.length := by
              rw [hc'eq]
              rw [List.length_take, List.length_drop]
              omega
            rw [← List.drop_append_of_le_length hclen]
            rw [hrec'']
            rw [List.drop_drop]
            have hidx : start.toNat + (cs - ov).toNat + ov.toNat =
                start.toNat + cs.toNat := by omega
            have hidx2 : (start + (cs - ov)).toNat + ov.toNat =
                start.toNat + cs.toNat := by omega
            rw [hidx2]
            have hsplit : text.drop (start.toNat + cs.toNat) =
                (text.drop start.toNat).drop cs.toNat := by
              rw [List.drop_drop]
            rw [hsplit]
            have htk : min cs ((text.length : ℤ) - start) = cs := hmin
            rw [show (cs : ℤ).toNat = cs.toNat from rfl]
            exact List.take_append_drop cs.toNat (text.drop start.toNat)
    · refine ⟨[], ?_, ?_, ?_, fun _ => rfl, fun hc => absurd hc hlt⟩
      · show chunkLoop text cs ov start (fuel + 1) = _
        unfold chunkLoop
        rw [if_neg hlt]
      · intro i
        have hmul : 0 ≤ (i : ℤ) * (cs - ov) :=
          mul_nonneg (by positivity) (by omega)
        simp only [List.length_nil]
        omega
      · intro i h
        simp at h

/-- C2 counterexample: with the explicit options `chunkSize = 2`,
`overlap = 0` (which satisfies the claim's `overlap < chunkSize`) on the
three-character text `"abc"`, the falsy `0` is replaced by the default
overlap `200`, the window step becomes negative, and the loop never
terminates — `chunkText` reports the non-advancing loop as `none` instead
of producing the claimed window sequence. -/
theorem chunkText_zero_overlap_counterexample :
    chunkText "abc".toList (some 2) (some 0) = none := by decide

/-- C2 amended: for every text and every `0 < overlap < chunkSize` (the
claim's bare `overlap < chunkSize` fails at `overlap = 0`, which the `||`
default silently turns into `200`): when the text fits in one chunk the
result is `[text]`; otherwise window `i` starts at `i·(chunkSize−overlap)`
and has length `min(chunkSize, remaining)`, windows stop exactly when a
window would start at or past the text length; and in all cases
concatenating the chunks with the overlapping prefixes removed
reconstructs the text exactly. -/
theorem chunkText_spec (text : List Char) (cs ov : ℤ)
    (hov : 0 < ov) (hcs : ov < cs) :
    ∃ cl, chunkText text (some cs) (some ov) = some cl ∧
      ((text.length : ℤ) ≤ cs → cl = [text]) ∧
      (cs < (text.length : ℤ) →
        (∀ i : ℕ, i < cl.length ↔ (i : ℤ) * (cs - ov) < (text.length : ℤ)) ∧
        (∀ (i : ℕ) (h : i < cl.length),
          cl[i] = (text.drop ((i : ℤ) * (cs - ov)).toNat).take
            (min cs ((text.length : ℤ) - (i : ℤ) * (cs - ov))).toNat)) ∧
      chunksJoin ov.toNat cl = text := by
  have hcs0 : jsOrDefault 1000 (some cs) = cs := by
    show (if cs = 0 then 1000 else cs) = cs
    rw [if_neg (by omega)]
  have hov0 : jsOrDefault 200 (some ov) = ov := by
    show (if ov = 0 then 200 else ov) = ov
    rw [if_neg (by omega)]
  by_cases hfit : (text.length : ℤ) ≤ cs
  · refine ⟨[text], ?_, fun _ => rfl, fun hc => absurd hfit (by omega), ?_⟩
    · unfold chunkText
      dsimp only
      rw [hcs0, hov0, if_pos hfit]
    · show text ++ _ = text
      simp
  · obtain ⟨l, hl, hcount, hcontent, _, hrec⟩ :=
      chunkLoop_spec text cs ov (by omega) (by omega) (text.length + 1) 0
        le_rfl (by omega)
    refine ⟨l, ?_, fun hc => absurd hc hfit, fun _ => ⟨?_, ?_⟩, ?_⟩
    · unfold chunkText
      dsimp only
      rw [hcs0, hov0, if_neg hfit]
      exact hl
    · intro i
      have := hcount i
      rwa [zero_add] at this
    · intro i h
      have := hcontent i h
      rwa [zero_add] at this
    · obtain ⟨c, r, hleq, hjoin⟩ := hrec (by omega)
      rw [hleq]
      show c ++ _ = text
      rw [hjoin]
      rfl

/-- Witness for C2 at `chunkSize = 3`, `overlap = 1`, text `"abcde"`
(chunks `["abc", "cde", "e"]`). -/
theorem chunkText_spec_witness :
    ((0 : ℤ) < 1 ∧ (1 : ℤ) < 3) ∧
    (∃ cl, chunkText "abcde".toList (some 3) (some 1) = some cl ∧
      (("abcde".toList.length : ℤ) ≤ 3 → cl = ["abcde".toList]) ∧
      ((3 : ℤ) < ("abcde".toList.length : ℤ) →
        (∀ i : ℕ, i < cl.length ↔
          (i : ℤ) * (3 - 1) < ("abcde".toList.length : ℤ)) ∧
        (∀ (i : ℕ) (h : i < cl.length),
          cl[i] = ("abcde".toList.drop ((i : ℤ) * (3 - 1)).toNat).take
            (min 3 (("abcde".toList.length : ℤ) - (i : ℤ) * (3 - 1))).toNat)) ∧
      chunksJoin (1 : ℤ).toNat cl = "abcde".toList) :=
  ⟨⟨by decide, by decide⟩,
    chunkText_spec "abcde".toList 3 1 (by decide) (by decide)⟩

/-! ### C1: rerank — stable descending sort, truncation, one embedding each -/

theorem scoreDocsFrom_ok (embed : List Char → List ℚ) (sqrt : ℚ → ℚ)
    (qe : List ℚ) :
    ∀ (docs : List Doc) (i : ℕ),
      (∀ d ∈ docs, jsTrim d.content ≠ []) →
      (∀ d ∈ docs, (embed (jsTrim d.content)).length = qe.length) →
      scoreDocsFrom embed sqrt qe docs i =
        .ok ((docs.enumFrom i).map
          (fun p => (p.2, cosineValue sqrt qe (embed (jsTrim p.2.content)), p.1))) := by
  intro docs
  induction docs with
  | nil => intro i _ _; rfl
  | cons d ds ih =>
    intro i hc hdim
    have hge : generateEmbedding embed d.content =
        .ok (embed (jsTrim d.content)) := by
      unfold generateEmbedding
      rw [if_neg (fun h => hc d (List.mem_cons_self _ _)
        (List.length_eq_zero.mp h))]
    have hcos : cosineSimilarity sqrt qe (embed (jsTrim d.content)) =
        .ok (cosineValue sqrt qe (embed (jsTrim d.content))) := by
      unfold cosineSimilarity
      rw [if_neg (fun h => h (hdim d (List.mem_cons_self _ _)).symm)]
    have hrest := ih (i + 1) (fun x hx => hc x (List.mem_cons_of_mem _ hx))
      (fun x hx => hdim x (List.mem_cons_of_mem _ hx))
    simp only [scoreDocsFrom, hge, hcos, hrest, List.enumFrom_cons, List.map_cons]

theorem enumFrom_map_pairwise (g : Doc → ℚ) :
    ∀ (l : List Doc) (i : ℕ),
      ((l.enumFrom i).map (fun p => (p.2, g p.2, p.1))).Pairwise
        (fun x y => x.2.2 < y.2.2) := by
  intro l
  induction l with
  | nil => intro i; constructor
  | cons d ds ih =>
    intro i
    rw [List.enumFrom_cons, List.map_cons]
    refine List.Pairwise.cons ?_ (ih (i + 1))
    intro y hy
    rcases List.mem_map.mp hy with ⟨⟨pi, pd⟩, hp, rfl⟩
    have := (List.mem_enumFrom hp).1
    show i < pi
    omega

theorem orderedInsert_pairwise_lex (a : Doc × ℚ × ℕ) :
    ∀ (l : List (Doc × ℚ × ℕ)), l.Pairwise scoreLex →
      (∀ x ∈ l, a.2.2 < x.2.2) →
      (l.orderedInsert scoreGe a).Pairwise scoreLex := by
  intro l
  induction l with
  | nil => intro _ _; exact List.pairwise_singleton _ _
  | cons y ys ih =>
    intro hl ha
    have hp := List.pairwise_cons.mp hl
    rw [List.orderedInsert]
    by_cases hay : scoreGe a y
    · rw [if_pos hay]
      unfold scoreGe at hay
      refine List.Pairwise.cons ?_ hl
      intro z hz
      rcases List.mem_cons.mp hz with rfl | hz'
      · rcases lt_or_eq_of_le hay with h | h
        · exact Or.inl h
        · exact Or.inr ⟨h.symm, ha z (List.mem_cons_self _ _)⟩
      · have hyz := hp.1 z hz'
        rcases hyz with h | ⟨h, _⟩
        · exact Or.inl (lt_of_lt_of_le h hay)
        · have hza : z.2.1 ≤ a.2.1 := h ▸ hay
          rcases lt_or_eq_of_le hza with hlt | heq
          · exact Or.inl hlt
          · exact Or.inr ⟨heq.symm, ha z (List.mem_cons_of_mem _ hz')⟩
    · rw [if_neg hay]
      refine List.Pairwise.cons ?_
        (ih hp.2 (fun x hx => ha x (List.mem_cons_of_mem _ hx)))
      intro z hz
      rcases (List.mem_orderedInsert scoreGe).mp hz with rfl | hz'
      · exact Or.inl (lt_of_not_le hay)
      · exact hp.1 z hz'

theorem insertionSort_pairwise_lex :
    ∀ (l : List (Doc × ℚ × ℕ)), l.Pairwise (fun x y => x.2.2 < y.2.2) →
      (l.insertionSort scoreGe).Pairwise scoreLex := by
  intro l
  induction l with
  | nil => intro _; constructor
  | cons a l ih =>
    intro hl
    have hp := List.pairwise_cons.mp hl
    rw [List.insertionSort]
    refine orderedInsert_pairwise_lex a _ (ih hp.2) ?_
    intro x hx
    exact hp.1 x ((List.perm_insertionSort scoreGe l).mem_iff.mp hx)

/-- C1: for every query and candidate list with `topK < |candidates|`
(well-formed inputs: non-blank query and contents, embeddings of a common
dimension), `rerank` embeds the query once and every candidate's content
once (the call trace is exactly `query :: contents`), and returns exactly
`topK` documents, ordered by non-increasing cosine similarity to the query,
equal scores keeping their original relative order (stable sort). -/
theorem rerank_spec (embed : List Char → List ℚ) (sqrt : ℚ → ℚ)
    (query : List Char) (documents : List Doc) (topK : ℕ)
    (hq : jsTrim query ≠ [])
    (hc : ∀ d ∈ documents, jsTrim d.content ≠ [])
    (hdim : ∀ d ∈ documents,
      (embed (jsTrim d.content)).length = (embed (jsTrim query)).length)
    (htop : topK < documents.length) :
    rerankPost embed sqrt query documents topK := by
  have hge : generateEmbedding embed query = .ok (embed (jsTrim query)) := by
    unfold generateEmbedding
    rw [if_neg (fun h => hq (List.length_eq_zero.mp h))]
  have hscore := scoreDocsFrom_ok embed sqrt (embed (jsTrim query))
    documents 0 hc hdim
  set scored := (documents.enumFrom 0).map
    (fun p => (p.2, cosineValue sqrt (embed (jsTrim query))
      (embed (jsTrim p.2.content)), p.1)) with hscored
  set sorted := scored.insertionSort scoreGe with hsorted
  have hlex : sorted.Pairwise scoreLex :=
    insertionSort_pairwise_lex scored
      (enumFrom_map_pairwise
        (fun d => cosineValue sqrt (embed (jsTrim query))
          (embed (jsTrim d.content))) documents 0)
  have hslen : sorted.length = documents.length := by
    rw [hsorted, List.length_insertionSort, hscored, List.length_map,
      List.enumFrom_length]
  have hmem_scored : ∀ x ∈ scored, x.2.1 = docScore embed sqrt query x.1 := by
    intro x hx
    rcases List.mem_map.mp hx with ⟨p, _, rfl⟩
    rfl
  have hmem_take : ∀ x ∈ sorted.take topK,
      x.2.1 = docScore embed sqrt query x.1 :=
    fun x hx => hmem_scored x
      ((List.perm_insertionSort scoreGe scored).mem_iff.mp
        ((List.take_sublist topK sorted).mem hx))
  refine ⟨(sorted.take topK).map (·.1), ?_, ?_, ?_, sorted, ?_, hlex, rfl⟩
  · unfold rerank
    rw [if_neg (show ¬documents.length = 0 by omega),
      if_neg (show ¬documents.length ≤ topK by omega), hge]
    dsimp only
    rw [hscore]
  · rw [List.length_map, List.length_take, hslen]
    omega
  · show ((sorted.take topK).map (·.1)).map (docScore embed sqrt query)
      |>.Pairwise (fun a b => b ≤ a)
    rw [List.map_map, List.pairwise_map]
    have hpt : (sorted.take topK).Pairwise scoreLex :=
      List.Pairwise.sublist (List.take_sublist _ _) hlex
    refine List.Pairwise.imp_of_mem ?_ hpt
    intro x y hx hy hxy
    have hx1 := hmem_take x hx
    have hy1 := hmem_take y hy
    show docScore embed sqrt query y.1 ≤ docScore embed sqrt query x.1
    rw [← hx1, ← hy1]
    rcases hxy with h | ⟨h, _⟩
    · exact le_of_lt h
    · exact le_of_eq h.symm
  · exact List.perm_insertionSort scoreGe scored

/-- Witness for C1: query `"a"`, candidates with contents `"b"` (embedding
`[1,0]`, similarity 1) and `"c"` (embedding `[0,1]`, similarity 0),
`topK = 1`, with a square-root model mapping `1` to `1`. -/
theorem rerank_spec_witness :
    (jsTrim ['a'] ≠ [] ∧
     (∀ d ∈ [Doc.mk ['1'] ['b'] [], Doc.mk ['2'] ['c'] []],
       jsTrim d.content ≠ []) ∧
     (∀ d ∈ [Doc.mk ['1'] ['b'] [], Doc.mk ['2'] ['c'] []],
       ((fun s : List Char => if s = ['c'] then ([0, 1] : List ℚ) else [1, 0])
           (jsTrim d.content)).length =
         ((fun s : List Char => if s = ['c'] then ([0, 1] : List ℚ) else [1, 0])
           (jsTrim ['a'])).length) ∧
     1 < ([Doc.mk ['1'] ['b'] [], Doc.mk ['2'] ['c'] []] : List Doc).length) ∧
    rerankPost
      (fun s : List Char => if s = ['c'] then ([0, 1] : List ℚ) else [1, 0])
      (fun q : ℚ => if q = 1 then 1 else 0) ['a']
      [Doc.mk ['1'] ['b'] [], Doc.mk ['2'] ['c'] []] 1 :=
  ⟨⟨by decide, by decide, by decide, by decide⟩,
    rerank_spec
      (fun s : List Char => if s = ['c'] then ([0, 1] : List ℚ) else [1, 0])
      (fun q : ℚ => if q = 1 then 1 else 0) ['a']
      [Doc.mk ['1'] ['b'] [], Doc.mk ['2'] ['c'] []] 1
      (by decide) (by decide) (by decide) (by decide)⟩
